import Mathlib

/-!
Verification of the CoJSON core (the `cojson` package of the Jazz repository).

The first part embeds `src/packages/cojson/src/coValue.ts` directly: the
`RawCoValue` interface surface used by the dispatch helpers `expectMap`,
`expectList`, `expectStream`, `expectPlainText`, and the `RawUnknownCoValue`
class.  Exceptions become `Except`, JavaScript objects become structures, and
getters become functions on those structures.

The remaining parts model, from the specification, the components whose
implementation files are not part of the source tree here: the per-session
hash-chained transaction log, the CoMap and CoList CRDT folds over the causal
order `(madeAt, sessionID, indexInSession)`, and sync-message ingest.
-/

/-! ## JSON values and identifiers -/

/-- JSON-shaped values (`JsonValue` in `jsonValue.ts`): the payloads CoValues
store.  `obj []` is the empty object `{}`. -/
inductive JsonValue where
  | null : JsonValue
  | bool (b : Bool) : JsonValue
  | num (n : Int) : JsonValue
  | str (s : String) : JsonValue
  | arr (elements : List JsonValue) : JsonValue
  | obj (fields : List (String × JsonValue)) : JsonValue

/-- Session identifiers are strings (textual IDs per the spec, §4.2). -/
abbrev SessionID := String

/-- The causal ordering key of a transaction: the lexicographic tuple
`(madeAt, sessionID, indexInSession)` (spec §3, "Causal ordering across
sessions").  Session IDs are compared lexicographically by their character
sequences. -/
abbrev CKey := ℕ ×ₗ List Char ×ₗ ℕ

/-- Build a causal key from a timestamp, a session ID and an in-session
index. -/
def mkKey (madeAt : ℕ) (sid : SessionID) (idx : ℕ) : CKey :=
  toLex (madeAt, toLex (sid.data, idx))

/-! ## Header, core and the unknown handle (from `coValue.ts`) -/

/-- The ruleset header field (spec §3): who governs permissions. -/
inductive Ruleset where
  | group : Ruleset
  | ownedByGroup (group : String) : Ruleset
  | unsafeAllowAll : Ruleset

/-- The immutable CoValue header (spec §3). -/
structure CoValueHeader where
  type : String
  ruleset : Ruleset
  meta : Option JsonValue
  createdAt : ℕ
  uniqueness : ℕ

/-- A core-level transaction as the unknown handle sees it: a timestamp and an
opaque ordered change list (spec §3). -/
structure Transaction where
  madeAt : ℕ
  changes : List JsonValue

/-- The state a `CoValueCore` owns for one CoValue: its ID, its immutable
header, and the per-session transaction logs. -/
structure CoValueCore where
  id : String
  header : CoValueHeader
  sessions : List (SessionID × List Transaction)

/-- All transactions a core holds, across its sessions. -/
def coreTransactions (core : CoValueCore) : List Transaction :=
  core.sessions.flatMap fun p => p.2

/-- The `RawCoValue` interface surface that the dispatch helpers consult: a
handle exposes its core and its kind tag `type` (a string). -/
structure RawCoValue where
  core : CoValueCore
  type : String

/-- `expectMap` from `coValue.ts`: throws `Error("Expected map")` unless
`content.type` is `"comap"`; otherwise returns `content` unchanged. -/
def expectMap (content : RawCoValue) : Except String RawCoValue :=
  if content.type ≠ "comap" then .error "Expected map" else .ok content

/-- `expectList` from `coValue.ts`. -/
def expectList (content : RawCoValue) : Except String RawCoValue :=
  if content.type ≠ "colist" then .error "Expected list" else .ok content

/-- `expectStream` from `coValue.ts`. -/
def expectStream (content : RawCoValue) : Except String RawCoValue :=
  if content.type ≠ "costream" then .error "Expected stream" else .ok content

/-- `expectPlainText` from `coValue.ts`. -/
def expectPlainText (content : RawCoValue) : Except String RawCoValue :=
  if content.type ≠ "coplaintext" then .error "Expected plaintext" else .ok content

/-- The `RawUnknownCoValue` class from `coValue.ts`: a thin handle over a core,
holding the fields its constructor sets (`id` from `core.id`, and `core`). -/
structure RawUnknownCoValue where
  id : String
  core : CoValueCore

/-- The `RawUnknownCoValue` constructor: `this.id = core.id; this.core = core`. -/
def RawUnknownCoValue.ofCore (core : CoValueCore) : RawUnknownCoValue :=
  ⟨core.id, core⟩

/-- The `type` getter: `return this.core.header.type`. -/
def RawUnknownCoValue.type (v : RawUnknownCoValue) : String :=
  v.core.header.type

/-- The `headerMeta` getter: `return this.core.header.meta`. -/
def RawUnknownCoValue.headerMeta (v : RawUnknownCoValue) : Option JsonValue :=
  v.core.header.meta

/-- The instance field `totalValidTransactions = 0`. -/
def RawUnknownCoValue.totalValidTransactions (_v : RawUnknownCoValue) : ℕ := 0

/-- `toJSON()` of the unknown handle: `return {}`. -/
def RawUnknownCoValue.toJSON (_v : RawUnknownCoValue) : JsonValue :=
  JsonValue.obj []

/-- `atTime()` of the unknown handle: `return this` (the time argument is
ignored by the source). -/
def RawUnknownCoValue.atTime (v : RawUnknownCoValue) (_t : ℕ) : RawUnknownCoValue :=
  v

/-- The materialization the unknown handle presents: the constant empty object,
independent of the transactions held (its `toJSON` consults nothing). -/
def unknownView (_txs : List Transaction) : JsonValue :=
  JsonValue.obj []

/-- Modelled from the spec: the point-in-time view of §4.4 ("`atTime(t)`:
returns a read-only view that ignores transactions with `madeAt > t`") for an
arbitrary kind-specific fold `view`; the concrete kind implementations are not
in the source tree here.  The view at time `t` is the fold over exactly the
transactions with `madeAt ≤ t`. -/
def viewAtTime {α : Type} (view : List Transaction → α) (txs : List Transaction)
    (t : ℕ) : α :=
  view (txs.filter fun tx => decide (tx.madeAt ≤ t))

/-! ## Subscription (core subscription registry used by `subscribe`)

`RawUnknownCoValue.subscribe(listener)` registers a wrapped listener with the
core and returns the core's unsubscribe function.  We model the core's
listener registry explicitly: listeners are functions from notified content to
an observation type, keyed by the token that unsubscribes them. -/

/-- A core's listener registry: registered listeners with their tokens, and the
next fresh token. -/
structure SubCore (C O : Type) where
  listeners : List (ℕ × (C → O))
  nextId : ℕ

/-- `CoValueCore.subscribe`: register a listener, return the new state and the
token identifying the registration (standing for the returned unsubscribe
function). -/
def SubCore.subscribe {C O : Type} (s : SubCore C O) (l : C → O) :
    SubCore C O × ℕ :=
  (⟨s.listeners ++ [(s.nextId, l)], s.nextId + 1⟩, s.nextId)

/-- Unsubscribing a token removes exactly the listeners registered under it. -/
def SubCore.unsubscribe {C O : Type} (s : SubCore C O) (tok : ℕ) : SubCore C O :=
  ⟨s.listeners.filter fun p => decide (p.1 ≠ tok), s.nextId⟩

/-- A content notification invokes every registered listener once, in
registration order, with the notified content; the result collects each
listener's observation. -/
def SubCore.notify {C O : Type} (s : SubCore C O) (content : C) : List O :=
  s.listeners.map fun p => p.2 content

/-- `RawUnknownCoValue.subscribe` from `coValue.ts`:
`return this.core.subscribe((content) => listener(content as this))` — it
registers with the core a listener that forwards the notified content to
`listener`, and returns the core's unsubscribe function. -/
def rawUnknownSubscribe {C O : Type} (s : SubCore C O) (listener : C → O) :
    SubCore C O × ℕ :=
  s.subscribe fun content => listener content

/-! ## CoMap (modelled from the spec, §4.6)

The CoMap implementation (`coValues/coMap.ts`) is not in the source tree here;
the fold is modelled from the spec: "Each change is `{op: "set", key, value}`
or `{op: "del", key}`.  Fold: LWW per key, ordering by
`(madeAt, sessionID, indexInSession)`." -/

/-- Modelled from the spec: a CoMap change, `set key value` or `del key`
(spec §4.6, CoMap). -/
inductive MapOp (V : Type) where
  | set (key : String) (value : V) : MapOp V
  | del (key : String) : MapOp V
deriving DecidableEq

/-- Modelled from the spec: a validated CoMap transaction — its wall-clock
timestamp and its ordered change list (spec §3, §4.6). -/
structure MapTx (V : Type) where
  madeAt : ℕ
  changes : List (MapOp V)
deriving DecidableEq

/-- A node's per-session logs for one CoMap: each session ID with its ordered
transaction list (spec §3, "mutable set of session logs"). -/
abbrev MapSessions (V : Type) := List (SessionID × List (MapTx V))

/-- One transaction located in the session structure: session, in-session
index, transaction.  This is the unit "transaction" that peers exchange and
that the causal order ranks. -/
structure MapEntry (V : Type) where
  sid : SessionID
  idx : ℕ
  tx : MapTx V
deriving DecidableEq

/-- The causal key of a located transaction. -/
def MapEntry.key {V : Type} (e : MapEntry V) : CKey :=
  mkKey e.tx.madeAt e.sid e.idx

/-- All located transactions of a node's session structure. -/
def allEntries {V : Type} (st : MapSessions V) : List (MapEntry V) :=
  st.flatMap fun p => p.2.enum.map fun q => ⟨p.1, q.1, q.2⟩

/-- Causal order on located transactions, as a total preorder used for
sorting. -/
def entryLE {V : Type} (a b : MapEntry V) : Prop := a.key ≤ b.key

instance {V : Type} : DecidableRel (@entryLE V) := fun a b =>
  inferInstanceAs (Decidable (a.key ≤ b.key))

instance {V : Type} : IsTotal (MapEntry V) entryLE :=
  ⟨fun a b => le_total a.key b.key⟩

instance {V : Type} : IsTrans (MapEntry V) entryLE :=
  ⟨fun _ _ _ h1 h2 => le_trans h1 h2⟩

/-- The node's transactions arranged in the deterministic causal order the
fold consumes. -/
def sortedEntries {V : Type} [DecidableEq V] (st : MapSessions V) :
    List (MapEntry V) :=
  (allEntries st).insertionSort entryLE

/-- Modelled from the spec: applying one CoMap change to the materialized
key-value view (`set` writes, `del` removes). -/
def applyOp {V : Type} (m : String → Option V) : MapOp V → String → Option V
  | .set k v => fun k2 => if k2 = k then some v else m k2
  | .del k => fun k2 => if k2 = k then none else m k2

/-- Applying one transaction: its changes in list order. -/
def applyTx {V : Type} (m : String → Option V) (e : MapEntry V) :
    String → Option V :=
  e.tx.changes.foldl applyOp m

/-- Modelled from the spec: the CoMap materialized view — the fold of all
validated transactions in causal order over the empty map (spec §3 "Merged
view", §4.6 CoMap). -/
def coMapView {V : Type} [DecidableEq V] (st : MapSessions V) :
    String → Option V :=
  (sortedEntries st).foldl applyTx fun _ => none

/-- Reading a key from the materialized CoMap view. -/
def coMapGet {V : Type} [DecidableEq V] (st : MapSessions V) (k : String) :
    Option V :=
  coMapView st k

/-- Whether a single change addresses key `k`. -/
def opTouches {V : Type} (k : String) : MapOp V → Bool
  | .set k2 _ => k2 == k
  | .del k2 => k2 == k

/-- Whether a transaction contains any change to key `k`. -/
def txTouches {V : Type} (k : String) (tx : MapTx V) : Bool :=
  tx.changes.any (opTouches k)

/-- One step of extracting the final write to `k` from a change list:
`some (some v)` for a winning `set`, `some none` for a winning `del`. -/
def lwStep {V : Type} (k : String) (acc : Option (Option V)) :
    MapOp V → Option (Option V)
  | .set k2 v => if k2 = k then some (some v) else acc
  | .del k2 => if k2 = k then some none else acc

/-- The final write to key `k` inside one transaction (its changes apply in
list order), if the transaction touches `k` at all. -/
def lastWrite {V : Type} (k : String) (tx : MapTx V) : Option (Option V) :=
  tx.changes.foldl (lwStep k) none

/-- The log a node stores for session `s` (empty if it has none). -/
def sessionLog {V : Type} (st : MapSessions V) (s : SessionID) : List (MapTx V) :=
  ((st.find? fun p => p.1 == s).map Prod.snd).getD []

/-! ## CoList (modelled from the spec, §4.6)

The CoList implementation (`coValues/coList.ts`) is not in the source tree
here; the RGA-style structure is modelled from the spec: each position's
identifier is the transaction ID that introduced it, insertions name an
anchor, and "for each anchor, children inserted after appear in descending
`(madeAt, sessionID, indexInSession)` order of the inserting transaction
(newer-first at an anchor)". -/

/-- Modelled from the spec: a CoList anchor — `"start"`, `"end"` (called
`stop` here), or the position identifier of an earlier insertion, which is the
introducing transaction's ID `(sessionID, indexInSession)` (spec §4.6
CoList). -/
inductive ListAnchor where
  | start : ListAnchor
  | stop : ListAnchor
  | pos (sid : SessionID) (idx : ℕ) : ListAnchor
deriving DecidableEq

/-- Modelled from the spec: one `{op:"app", after, value}` insertion — the
inserting transaction's timestamp, session and in-session index, the anchor it
inserts after, and the element value (spec §4.6 CoList). -/
structure ListIns (V : Type) where
  madeAt : ℕ
  sid : SessionID
  idx : ℕ
  after : ListAnchor
  value : V
deriving DecidableEq

/-- The causal key of the inserting transaction. -/
def ListIns.key {V : Type} (i : ListIns V) : CKey :=
  mkKey i.madeAt i.sid i.idx

/-- The stable position identifier an insertion introduces: its transaction
ID. -/
def ListIns.pos {V : Type} (i : ListIns V) : ListAnchor :=
  ListAnchor.pos i.sid i.idx

/-- Newer-first order on insertions: `a` precedes `b` when `b`'s causal key is
at most `a`'s. -/
def newerFirst {V : Type} (a b : ListIns V) : Prop := b.key ≤ a.key

instance {V : Type} : DecidableRel (@newerFirst V) := fun a b =>
  inferInstanceAs (Decidable (b.key ≤ a.key))

instance {V : Type} : IsTotal (ListIns V) newerFirst :=
  ⟨fun a b => le_total b.key a.key⟩

instance {V : Type} : IsTrans (ListIns V) newerFirst :=
  ⟨fun _ _ _ h1 h2 => le_trans h2 h1⟩

/-- The children inserted after anchor `a`, in the deterministic newer-first
iteration order. -/
def childrenAt {V : Type} [DecidableEq V] (ins : List (ListIns V))
    (a : ListAnchor) : List (ListIns V) :=
  (ins.filter fun i => decide (i.after = a)).insertionSort newerFirst

/-- Modelled from the spec: the RGA iteration order at an anchor — each child
(newest first) followed by the traversal of the positions anchored at it
(spec §4.6 CoList, iteration order). -/
def listTraverse {V : Type} [DecidableEq V] (ins : List (ListIns V))
    (a : ListAnchor) : List (ListIns V) :=
  (childrenAt ins a).attach.flatMap fun c =>
    c.1 :: listTraverse (ins.erase c.1) (ListIns.pos c.1)
termination_by ins.length
decreasing_by
  have hc : c.1 ∈ ins := by
    have h1 : c.1 ∈ childrenAt ins a := c.2
    have h2 := (List.mem_insertionSort newerFirst).mp h1
    exact (List.mem_filter.mp h2).1
  have h3 : 0 < ins.length := List.length_pos.mpr (List.ne_nil_of_mem hc)
  simp [List.length_erase_of_mem hc]
  omega

/-- Modelled from the spec: the materialized CoList — iterate from `"start"`
then `"end"`, skip tombstoned positions, read off the values
(spec §4.6 CoList: "Tombstoned positions are skipped"). -/
def coListView {V : Type} [DecidableEq V] (ins : List (ListIns V))
    (dels : List (SessionID × ℕ)) : List V :=
  (((listTraverse ins ListAnchor.start) ++ (listTraverse ins ListAnchor.stop)).filter
    fun i => decide ((i.sid, i.idx) ∉ dels)).map ListIns.value

/-! ## Session log: hash chain and trailing signature (modelled from the spec,
§2.3, §4.3)

The session-log implementation is not in the source tree here; the append-only
hash-chained, signed log is modelled from the spec.  Cryptography is consumed
through the narrow deterministic provider interface of §4.1. -/

/-- Modelled from the spec: the crypto provider interface (§4.1) — a hash over
canonical bytes, and signing/verification under an account signing key.
Digests, keys and signatures are abstracted as naturals. -/
structure CryptoProvider where
  hash : String → ℕ
  sign : ℕ → ℕ → ℕ
  verify : ℕ → ℕ → ℕ → Bool

/-- Modelled from the spec: a session-log transaction — timestamp plus the
canonical-encodable payload (its change list as already-encoded canonical
JSON). -/
structure LogTx where
  madeAt : ℕ
  payload : String
deriving DecidableEq

/-- Modelled from the spec: the canonical JSON encoding of a transaction —
sorted object keys, no insignificant whitespace (§6). -/
def canonicalTx (tx : LogTx) : String :=
  "\x7b\"changes\":" ++ tx.payload ++ ",\"madeAt\":" ++ toString tx.madeAt ++ "\x7d"

/-- One chain-hash extension step: `h_i = H(h_{i-1} ‖ canonical(tx_i))`
(spec §3, session-log invariant 1). -/
def chainStep (c : CryptoProvider) (h : ℕ) (tx : LogTx) : ℕ :=
  c.hash (toString h ++ canonicalTx tx)

/-- The running chain hash over a transaction sequence, from the empty-chain
hash `0`. -/
def chainHash (c : CryptoProvider) (txs : List LogTx) : ℕ :=
  txs.foldl (chainStep c) 0

/-- Modelled from the spec: a session log — its transactions plus the trailing
signature over the current chain hash (spec §3, §4.3). -/
structure SessionLogState where
  txs : List LogTx
  lastSignature : ℕ
deriving DecidableEq

/-- Modelled from the spec: `append(tx, signatureAfter)` — requires
`signatureAfter` to verify, under the session account's signing key, over the
post-append chain hash; otherwise `SignatureError` (spec §4.3). -/
def logAppend (c : CryptoProvider) (accountPk : ℕ) (log : SessionLogState)
    (tx : LogTx) (signatureAfter : ℕ) : Except String SessionLogState :=
  if c.verify accountPk (chainStep c (chainHash c log.txs) tx) signatureAfter then
    .ok ⟨log.txs ++ [tx], signatureAfter⟩
  else
    .error "SignatureError"

/-- Modelled from the spec: `verify()` — re-derive the chain hash and check the
trailing signature under the session account's signing key (spec §4.3). -/
def logVerify (c : CryptoProvider) (accountPk : ℕ) (log : SessionLogState) : Bool :=
  c.verify accountPk (chainHash c log.txs) log.lastSignature

/-! ## Sync ingest (modelled from the spec, §4.4, §4.8)

The sync-engine implementation is not in the source tree here.  A `CONTENT`
message delivers, for a session, transactions extending the sender's view of
known state; ingest appends only the genuinely new suffix, checks the trailing
signature over the post-append chain hash, and otherwise leaves the state
unchanged.  The materialized view and the advertised known state are functions
of the resulting log. -/

/-- Modelled from the spec: the per-session part of a `CONTENT` message —
`(afterIndex, transactions[], lastSignature)` (spec §4.8). -/
structure ContentMsg where
  afterIndex : ℕ
  txs : List LogTx
  lastSignature : ℕ
deriving DecidableEq

/-- Modelled from the spec: applying one inbound `CONTENT` message to one
session log (spec §4.4 ingest, §4.8 reconciliation step 3): a gap
(`afterIndex` beyond the known log) leaves the state unchanged; already-known
transactions are skipped; a new suffix is appended only when the message's
trailing signature verifies over the post-append chain hash. -/
def applyContent (c : CryptoProvider) (accountPk : ℕ) (log : SessionLogState)
    (m : ContentMsg) : SessionLogState :=
  if log.txs.length < m.afterIndex then log
  else if (m.txs.drop (log.txs.length - m.afterIndex)).isEmpty then log
  else if c.verify accountPk
      (chainHash c (log.txs ++ m.txs.drop (log.txs.length - m.afterIndex)))
      m.lastSignature then
    ⟨log.txs ++ m.txs.drop (log.txs.length - m.afterIndex), m.lastSignature⟩
  else log

/-- The known state a node advertises for one session: its last index (log
length) and trailing signature (spec §4.3 `knownState`). -/
def knownState (log : SessionLogState) : ℕ × ℕ :=
  (log.txs.length, log.lastSignature)

/-! ## Generic session structure, CoStream and CoPlainText views (modelled
from the spec)

Every CoValue kind shares the same canonical state: per-session ordered
transaction logs (spec §3).  The generic forms below let convergence be
stated for each kind's materialization. -/

/-- A session structure over any per-kind transaction type: each session ID
with its ordered log (spec §3, "mutable set of session logs"). -/
abbrev Sessions (τ : Type) := List (SessionID × List τ)

/-- One transaction located in a generic session structure: session,
in-session index, transaction. -/
structure LocEntry (τ : Type) where
  sid : SessionID
  idx : ℕ
  tx : τ
deriving DecidableEq

/-- All located transactions of a generic session structure. -/
def locEntries {τ : Type} (st : Sessions τ) : List (LocEntry τ) :=
  st.flatMap fun p => p.2.enum.map fun q => ⟨p.1, q.1, q.2⟩

/-- The log a node stores for session `s` in a generic session structure
(empty if it has none). -/
def storedLog {τ : Type} (st : Sessions τ) (s : SessionID) : List τ :=
  ((st.find? fun p => p.1 == s).map Prod.snd).getD []

/-- Modelled from the spec: a CoStream's sessions hold each session's entries
in append order; the CoStream implementation (`coValues/coStream.ts`) is not
in the source tree here (spec §4.6 CoStream). -/
abbrev StreamSessions (V : Type) := Sessions V

/-- Modelled from the spec: the CoStream materialized view — "for each
session, the ordered list of its entries"; no cross-session merge
(spec §4.6 CoStream). -/
def coStreamView {V : Type} (st : StreamSessions V) : SessionID → List V :=
  fun s => storedLog st s

/-- Modelled from the spec: CoPlainText is "a CoList of single characters";
its materialized text is the CoList view over character insertions
(spec §4.6 CoPlainText; the implementation is not in the source tree here). -/
def coPlainTextView (ins : List (ListIns Char)) (dels : List (SessionID × ℕ)) :
    List Char :=
  coListView ins dels

/-! ## Dispatch and unknown-handle theorems (claims on `coValue.ts`) -/

/-- Claim C1: for every `RawCoValue`, each of the four dispatch helpers
returns its argument itself exactly when the argument's `type` tag matches
the helper's kind (`"comap"`, `"colist"`, `"costream"`, `"coplaintext"`
respectively), and throws an `Error` in every other case: it throws if and
only if the tag does not match. -/
theorem expect_dispatch_tags (content : RawCoValue) :
    (∀ x, expectMap content = Except.ok x ↔ content.type = "comap" ∧ x = content) ∧
    (expectMap content = Except.error "Expected map" ↔ content.type ≠ "comap") ∧
    (∀ x, expectList content = Except.ok x ↔ content.type = "colist" ∧ x = content) ∧
    (expectList content = Except.error "Expected list" ↔ content.type ≠ "colist") ∧
    (∀ x, expectStream content = Except.ok x ↔ content.type = "costream" ∧ x = content) ∧
    (expectStream content = Except.error "Expected stream" ↔ content.type ≠ "costream") ∧
    (∀ x, expectPlainText content = Except.ok x ↔ content.type = "coplaintext" ∧ x = content) ∧
    (expectPlainText content = Except.error "Expected plaintext" ↔
      content.type ≠ "coplaintext") := by
  by_cases h1 : content.type = "comap" <;>
    by_cases h2 : content.type = "colist" <;>
      by_cases h3 : content.type = "costream" <;>
        by_cases h4 : content.type = "coplaintext" <;>
          simp [expectMap, expectList, expectStream, expectPlainText, h1, h2, h3, h4,
            eq_comm]

/-- Claim C2: the point-in-time view at `t` ignores exactly the transactions
with `madeAt > t` — prepending a transaction with `madeAt > t` leaves it
unchanged, while one with `madeAt ≤ t` is part of the folded set — and the
`RawUnknownCoValue.atTime` result (the handle itself) materializes exactly as
the point-in-time fold of the unknown handle's (constant-empty) view, for
every time `t`. -/
theorem atTime_point_in_time {α : Type} (view : List Transaction → α) :
    (∀ (txs : List Transaction) (t : ℕ) (tx : Transaction), t < tx.madeAt →
      viewAtTime view (tx :: txs) t = viewAtTime view txs t) ∧
    (∀ (txs : List Transaction) (t : ℕ) (tx : Transaction), tx.madeAt ≤ t →
      viewAtTime view (tx :: txs) t =
        view (tx :: txs.filter fun tx2 => decide (tx2.madeAt ≤ t))) ∧
    (∀ (core : CoValueCore) (t : ℕ),
      ((RawUnknownCoValue.ofCore core).atTime t).toJSON =
        viewAtTime unknownView (coreTransactions core) t) ∧
    (∀ (core : CoValueCore) (t : ℕ),
      (RawUnknownCoValue.ofCore core).atTime t = RawUnknownCoValue.ofCore core) := by
  refine ⟨?_, ?_, ?_, ?_⟩
  · intro txs t tx h
    simp [viewAtTime, List.filter_cons, Nat.not_le.mpr h]
  · intro txs t tx h
    simp [viewAtTime, List.filter_cons, h]
  · intro core t
    rfl
  · intro core t
    rfl

/-- Witness for claim C2 at concrete inputs: a transaction made at time 5 is
ignored by the view at time 4, and a concrete unknown handle's `atTime 4`
materializes as the point-in-time fold. -/
theorem atTime_point_in_time_witness :
    viewAtTime unknownView [⟨5, []⟩] 4 = viewAtTime unknownView [] 4 ∧
    ((RawUnknownCoValue.ofCore
        ⟨"co_z1", ⟨"group", Ruleset.group, none, 0, 0⟩,
          [("sess1", [⟨5, []⟩])]⟩).atTime 4).toJSON =
      viewAtTime unknownView
        (coreTransactions
          ⟨"co_z1", ⟨"group", Ruleset.group, none, 0, 0⟩, [("sess1", [⟨5, []⟩])]⟩) 4 :=
  ⟨(atTime_point_in_time unknownView).1 [] 4 ⟨5, []⟩ (by decide),
   (atTime_point_in_time unknownView).2.2.1 _ 4⟩

/-- Claim C8: a core whose header type is none of the four concrete kinds gets
the `RawUnknownCoValue` handle, whose `toJSON()` is the empty object and whose
`totalValidTransactions` is `0`, regardless of the transactions the core
holds. -/
theorem rawUnknown_materializes_empty (core : CoValueCore)
    (h : core.header.type ∉ (["comap", "colist", "costream", "coplaintext"] : List String)) :
    (RawUnknownCoValue.ofCore core).toJSON = JsonValue.obj [] ∧
    (RawUnknownCoValue.ofCore core).totalValidTransactions = 0 :=
  ⟨rfl, rfl⟩

/-- Witness for claim C8: a concrete `"group"`-typed core holding a
transaction still materializes as `{}` with zero valid transactions. -/
theorem rawUnknown_materializes_empty_witness :
    ("group" ∉ (["comap", "colist", "costream", "coplaintext"] : List String)) ∧
    (RawUnknownCoValue.ofCore
        ⟨"co_z2", ⟨"group", Ruleset.group, none, 3, 1⟩,
          [("sess1", [⟨7, [JsonValue.null]⟩])]⟩).toJSON = JsonValue.obj [] ∧
    (RawUnknownCoValue.ofCore
        ⟨"co_z2", ⟨"group", Ruleset.group, none, 3, 1⟩,
          [("sess1", [⟨7, [JsonValue.null]⟩])]⟩).totalValidTransactions = 0 :=
  ⟨by decide,
   rawUnknown_materializes_empty
     ⟨"co_z2", ⟨"group", Ruleset.group, none, 3, 1⟩, [("sess1", [⟨7, [JsonValue.null]⟩])]⟩
     (by decide)⟩

/-- Claim C9: the unknown handle's `type` getter returns exactly
`core.header.type`, its `headerMeta` getter exactly `core.header.meta`, and
its `id` equals `core.id`; the operations on the handle (here `atTime`, which
returns the handle itself) never change what these accessors return. -/
theorem rawUnknown_header_accessors (core : CoValueCore) (t : ℕ) :
    (RawUnknownCoValue.ofCore core).type = core.header.type ∧
    (RawUnknownCoValue.ofCore core).headerMeta = core.header.meta ∧
    (RawUnknownCoValue.ofCore core).id = core.id ∧
    (RawUnknownCoValue.ofCore core).atTime t = RawUnknownCoValue.ofCore core ∧
    ((RawUnknownCoValue.ofCore core).atTime t).type = core.header.type ∧
    ((RawUnknownCoValue.ofCore core).atTime t).headerMeta = core.header.meta ∧
    ((RawUnknownCoValue.ofCore core).atTime t).id = core.id :=
  ⟨rfl, rfl, rfl, rfl, rfl, rfl, rfl⟩

/-- Claim C10: `RawUnknownCoValue.subscribe` registers with the core a
listener forwarding each notified content to the given listener — so a core
notification invokes the given listener exactly once, with that content, as
the one new observation appended to the notification's results — and it
returns exactly the unsubscribe token `core.subscribe` produced, so
unsubscribing through it removes exactly the handle's registration. -/
theorem rawUnknown_subscribe_delegates {C O : Type} (s : SubCore C O)
    (listener : C → O) (content : C)
    (hfresh : ∀ p ∈ s.listeners, p.1 < s.nextId) :
    rawUnknownSubscribe s listener = s.subscribe (fun c => listener c) ∧
    (rawUnknownSubscribe s listener).2 = (s.subscribe (fun c => listener c)).2 ∧
    ((rawUnknownSubscribe s listener).1).notify content =
      s.notify content ++ [listener content] ∧
    (((rawUnknownSubscribe s listener).1).unsubscribe
        (rawUnknownSubscribe s listener).2).listeners = s.listeners := by
  refine ⟨rfl, rfl, ?_, ?_⟩
  · simp [rawUnknownSubscribe, SubCore.subscribe, SubCore.notify]
  · simp only [rawUnknownSubscribe, SubCore.subscribe, SubCore.unsubscribe,
      List.filter_append]
    have h2 : (([(s.nextId, fun c => listener c)] : List (ℕ × (C → O))).filter
        fun p => decide (p.1 ≠ s.nextId)) = [] := by
      simp
    rw [h2, List.append_nil]
    apply List.filter_eq_self.mpr
    intro p hp
    simpa using Nat.ne_of_lt (hfresh p hp)

/-- Witness for claim C10 at concrete inputs: subscribing a doubling listener
to a registry holding one listener, then notifying with `5`, appends exactly
the doubled observation; unsubscribing with the returned token restores the
original listener list. -/
theorem rawUnknown_subscribe_delegates_witness :
    ((rawUnknownSubscribe (⟨[(0, fun n => n + 1)], 1⟩ : SubCore ℕ ℕ)
        (fun n => n * 2)).1).notify 5 =
      (⟨[(0, fun n => n + 1)], 1⟩ : SubCore ℕ ℕ).notify 5 ++ [(fun n => n * 2) 5] ∧
    (((rawUnknownSubscribe (⟨[(0, fun n => n + 1)], 1⟩ : SubCore ℕ ℕ)
        (fun n => n * 2)).1).unsubscribe
      (rawUnknownSubscribe (⟨[(0, fun n => n + 1)], 1⟩ : SubCore ℕ ℕ)
        (fun n => n * 2)).2).listeners = [(0, fun n => n + 1)] :=
  ⟨(rawUnknown_subscribe_delegates ⟨[(0, fun n => n + 1)], 1⟩ (fun n => n * 2) 5
      (by intro p hp; rcases List.mem_singleton.mp hp with rfl; decide)).2.2.1,
   (rawUnknown_subscribe_delegates ⟨[(0, fun n => n + 1)], 1⟩ (fun n => n * 2) 5
      (by intro p hp; rcases List.mem_singleton.mp hp with rfl; decide)).2.2.2⟩

/-! ## Session-log chain integrity and idempotent ingest -/

/-- Claim C6: the running chain hash satisfies
`h_i = H(h_{i-1} ‖ canonical(tx_i))`; a successful `append` extends the log by
exactly the appended transaction and leaves the trailing signature verifying,
under the session account's signing key, over the final chain hash (which is
what `verify()` checks); and `append` rejects with `SignatureError` exactly
when the proposed signature fails to verify over the post-append chain
hash. -/
theorem sessionLog_chain_integrity (c : CryptoProvider) (accountPk : ℕ)
    (log log2 : SessionLogState) (tx : LogTx) (signatureAfter : ℕ)
    (h : logAppend c accountPk log tx signatureAfter = Except.ok log2) :
    (∀ (txs : List LogTx) (tx2 : LogTx),
      chainHash c (txs ++ [tx2]) = chainStep c (chainHash c txs) tx2) ∧
    log2.txs = log.txs ++ [tx] ∧
    log2.lastSignature = signatureAfter ∧
    logVerify c accountPk log2 = true ∧
    (∀ sig, c.verify accountPk (chainStep c (chainHash c log.txs) tx) sig = false →
      logAppend c accountPk log tx sig = Except.error "SignatureError") := by
  have hstep : ∀ (txs : List LogTx) (tx2 : LogTx),
      chainHash c (txs ++ [tx2]) = chainStep c (chainHash c txs) tx2 := by
    intro txs tx2
    simp [chainHash, List.foldl_append]
  by_cases hv : c.verify accountPk (chainStep c (chainHash c log.txs) tx) signatureAfter
  · have hlog2 : log2 = ⟨log.txs ++ [tx], signatureAfter⟩ := by
      simp [logAppend, hv] at h
      exact h.symm
    subst hlog2
    refine ⟨hstep, rfl, rfl, ?_, ?_⟩
    · simp [logVerify, hstep, hv]
    · intro sig hsig
      simp [logAppend, hsig]
  · simp [logAppend, hv] at h

/-- Witness for claim C6 at concrete inputs: with a toy provider (hash =
string length, verification = additive signature check), appending one
transaction to the empty log under the matching signature succeeds and the
resulting log's trailing signature verifies over its chain hash. -/
theorem sessionLog_chain_integrity_witness :
    (⟨[⟨1, "[]"⟩], 33⟩ : SessionLogState).txs = ([] : List LogTx) ++ [⟨1, "[]"⟩] ∧
    logVerify ⟨String.length, fun sk m => sk + m, fun pk m sig => sig == pk + m⟩ 7
      ⟨[⟨1, "[]"⟩], 33⟩ = true ∧
    chainHash ⟨String.length, fun sk m => sk + m, fun pk m sig => sig == pk + m⟩
        ([⟨1, "[]"⟩] ++ [⟨2, "[4]"⟩]) =
      chainStep ⟨String.length, fun sk m => sk + m, fun pk m sig => sig == pk + m⟩
        (chainHash ⟨String.length, fun sk m => sk + m, fun pk m sig => sig == pk + m⟩
          [⟨1, "[]"⟩]) ⟨2, "[4]"⟩ := by
  have happ := sessionLog_chain_integrity
    ⟨String.length, fun sk m => sk + m, fun pk m sig => sig == pk + m⟩ 7
    ⟨[], 0⟩ ⟨[⟨1, "[]"⟩], 33⟩ ⟨1, "[]"⟩ 33 (by rfl)
  exact ⟨happ.2.1, happ.2.2.2.1, happ.1 [⟨1, "[]"⟩] ⟨2, "[4]"⟩⟩

/-- A `CONTENT` message none of whose transactions are new (and that does not
start beyond the known log) leaves the session log unchanged. -/
theorem applyContent_skip (c : CryptoProvider) (accountPk : ℕ)
    (log : SessionLogState) (m : ContentMsg)
    (h1 : ¬ log.txs.length < m.afterIndex)
    (h2 : m.txs.drop (log.txs.length - m.afterIndex) = []) :
    applyContent c accountPk log m = log := by
  simp [applyContent, h1, h2]

/-- Claim C7: ingest is idempotent — applying the same inbound `CONTENT`
message twice in succession leaves exactly the state reached after applying it
once (the session log, hence also the derived known state and any view folded
from the log, changes nothing on the second application). -/
theorem ingest_idempotent (c : CryptoProvider) (accountPk : ℕ)
    (log : SessionLogState) (m : ContentMsg) :
    applyContent c accountPk (applyContent c accountPk log m) m =
      applyContent c accountPk log m ∧
    knownState (applyContent c accountPk (applyContent c accountPk log m) m) =
      knownState (applyContent c accountPk log m) := by
  have hmain : applyContent c accountPk (applyContent c accountPk log m) m =
      applyContent c accountPk log m := by
    by_cases h1 : log.txs.length < m.afterIndex
    · simp [applyContent, h1]
    · by_cases h2 : (m.txs.drop (log.txs.length - m.afterIndex)).isEmpty
      · simp [applyContent, h1, h2]
      · by_cases h3 : c.verify accountPk
            (chainHash c (log.txs ++ m.txs.drop (log.txs.length - m.afterIndex)))
            m.lastSignature
        · have hfirst : applyContent c accountPk log m =
              ⟨log.txs ++ m.txs.drop (log.txs.length - m.afterIndex),
                m.lastSignature⟩ := by
            simp [applyContent, h1, h2, h3]
          rw [hfirst]
          have hlt : log.txs.length - m.afterIndex < m.txs.length := by
            by_contra hge
            exact h2 (by simp [List.drop_eq_nil_iff.mpr (Nat.le_of_not_lt hge)])
          have hle : m.afterIndex ≤ log.txs.length := Nat.le_of_not_lt h1
          apply applyContent_skip
          · show ¬ (log.txs ++ m.txs.drop (log.txs.length - m.afterIndex)).length <
              m.afterIndex
            simp only [List.length_append, List.length_drop]
            omega
          · show m.txs.drop ((log.txs ++
                m.txs.drop (log.txs.length - m.afterIndex)).length - m.afterIndex) = []
            have hlen : (log.txs ++ m.txs.drop (log.txs.length - m.afterIndex)).length -
                m.afterIndex = m.txs.length := by
              simp only [List.length_append, List.length_drop]
              omega
            rw [hlen]
            exact List.drop_length m.txs
        · simp [applyContent, h1, h2, h3]
  exact ⟨hmain, by rw [hmain]⟩

/-! ## CoMap: causal-order and convergence lemmas -/

/-- The causal key determines timestamp, session and index. -/
theorem mkKey_inj {m1 m2 : ℕ} {s1 s2 : SessionID} {i1 i2 : ℕ}
    (h : mkKey m1 s1 i1 = mkKey m2 s2 i2) : m1 = m2 ∧ s1 = s2 ∧ i1 = i2 := by
  unfold mkKey at h
  have h1 := toLex.injective h
  have hm : m1 = m2 := congrArg Prod.fst h1
  have h2 := toLex.injective (congrArg Prod.snd h1)
  have hs : s1.data = s2.data := congrArg Prod.fst h2
  have hi : i1 = i2 := congrArg Prod.snd h2
  refine ⟨hm, ?_, hi⟩
  cases s1
  cases s2
  exact congrArg String.mk (by simpa using hs)

/-- Membership in the located-transaction list, characterized by the session
structure. -/
theorem mem_allEntries {V : Type} {st : MapSessions V} {s : SessionID} {i : ℕ}
    {tx : MapTx V} :
    (⟨s, i, tx⟩ : MapEntry V) ∈ allEntries st ↔
      ∃ log, (s, log) ∈ st ∧ log[i]? = some tx := by
  constructor
  · intro h
    rcases List.mem_flatMap.mp h with ⟨p, hp, hmem⟩
    rcases List.mem_map.mp hmem with ⟨q, hq, heq⟩
    have hs : p.1 = s := congrArg MapEntry.sid heq
    have hi : q.1 = i := congrArg MapEntry.idx heq
    have htx : q.2 = tx := congrArg MapEntry.tx heq
    refine ⟨p.2, ?_, ?_⟩
    · rw [← hs]
      exact hp
    · have := List.mem_enum_iff_getElem?.mp hq
      rw [hi, htx] at this
      exact this
  · rintro ⟨log, hlog, hget⟩
    apply List.mem_flatMap.mpr
    refine ⟨(s, log), hlog, List.mem_map.mpr ⟨(i, tx), ?_, rfl⟩⟩
    exact List.mem_enum_iff_getElem?.mpr hget

/-- In an association list with no duplicate keys, entries are determined by
their key. -/
theorem assoc_eq_of_nodup {α β : Type} {st : List (α × β)}
    (h : (st.map Prod.fst).Nodup) {p q : α × β}
    (hp : p ∈ st) (hq : q ∈ st) (hfst : p.1 = q.1) : p = q := by
  induction st with
  | nil => cases hp
  | cons hd tl ih =>
    rw [List.map_cons] at h
    have hnd := List.nodup_cons.mp h
    rcases List.mem_cons.mp hp with rfl | hp2
    · rcases List.mem_cons.mp hq with rfl | hq2
      · rfl
      · exact absurd (List.mem_map.mpr ⟨q, hq2, hfst.symm⟩) hnd.1
    · rcases List.mem_cons.mp hq with rfl | hq2
      · exact absurd (List.mem_map.mpr ⟨p, hp2, hfst⟩) hnd.1
      · exact ih hnd.2 hp2 hq2

/-- With no duplicate session IDs, distinct located transactions have
distinct causal keys. -/
theorem allEntries_key_inj {V : Type} {st : MapSessions V}
    (h : (st.map Prod.fst).Nodup) :
    ∀ e1 ∈ allEntries st, ∀ e2 ∈ allEntries st, e1.key = e2.key → e1 = e2 := by
  rintro ⟨s1, i1, tx1⟩ h1 ⟨s2, i2, tx2⟩ h2 hk
  simp only [MapEntry.key] at hk
  obtain ⟨hm, hs, hi⟩ := mkKey_inj hk
  subst hs
  subst hi
  rcases mem_allEntries.mp h1 with ⟨log1, hl1, hg1⟩
  rcases mem_allEntries.mp h2 with ⟨log2, hl2, hg2⟩
  have hlog : (s1, log1) = (s1, log2) := assoc_eq_of_nodup h hl1 hl2 rfl
  have hlog2 : log1 = log2 := congrArg Prod.snd hlog
  subst hlog2
  rw [hg1] at hg2
  have : tx1 = tx2 := Option.some.inj hg2
  rw [this]

/-- With no duplicate session IDs, the located-transaction list has no
duplicates. -/
theorem nodup_allEntries {V : Type} {st : MapSessions V}
    (h : (st.map Prod.fst).Nodup) : (allEntries st).Nodup := by
  apply List.nodup_flatMap.mpr
  constructor
  · intro p _
    apply List.Nodup.map
    · intro q1 q2 heq
      have h1 : q1.1 = q2.1 := congrArg MapEntry.idx heq
      have h2 : q1.2 = q2.2 := congrArg MapEntry.tx heq
      exact Prod.ext h1 h2
    · exact (List.nodup_enum_map_fst p.2).of_map
  · have hpair : st.Pairwise fun p q => p.1 ≠ q.1 := List.pairwise_map.mp h
    apply hpair.imp
    intro p q hne x hxp hxq
    rcases List.mem_map.mp hxp with ⟨q1, _, heq1⟩
    rcases List.mem_map.mp hxq with ⟨q2, _, heq2⟩
    have e1 : p.1 = x.sid := congrArg MapEntry.sid heq1
    have e2 : q.1 = x.sid := congrArg MapEntry.sid heq2
    exact hne (e1.trans e2.symm)

/-- Two session structures holding the same located transactions have permuted
entry lists. -/
theorem allEntries_perm {V : Type} {st1 st2 : MapSessions V}
    (h1 : (st1.map Prod.fst).Nodup) (h2 : (st2.map Prod.fst).Nodup)
    (h12 : ∀ e ∈ allEntries st1, e ∈ allEntries st2)
    (h21 : ∀ e ∈ allEntries st2, e ∈ allEntries st1) :
    List.Perm (allEntries st1) (allEntries st2) :=
  (List.perm_ext_iff_of_nodup (nodup_allEntries h1) (nodup_allEntries h2)).mpr
    fun a => ⟨h12 a, h21 a⟩

/-- Two sorted permutations of key-distinct entries are equal: the causal sort
order is canonical. -/
theorem sorted_entryLE_eq {V : Type} : ∀ {l1 l2 : List (MapEntry V)},
    List.Perm l1 l2 →
    (∀ x ∈ l2, ∀ y ∈ l2, x.key = y.key → x = y) →
    l1.Sorted entryLE → l2.Sorted entryLE → l1 = l2 := by
  intro l1
  induction l1 with
  | nil =>
    intro l2 p _ _ _
    have := p.symm.eq_nil
    rw [this]
  | cons a t1 ih =>
    intro l2 p inj s1 s2
    cases l2 with
    | nil => cases List.Perm.eq_nil p
    | cons b t2 =>
      have hab : a = b := by
        by_cases hcase : a = b
        · exact hcase
        · have ha2 : a ∈ b :: t2 := p.mem_iff.mp (List.mem_cons_self a t1)
          have hb1 : b ∈ a :: t1 := p.mem_iff.mpr (List.mem_cons_self b t2)
          have ha2t : a ∈ t2 := by
            rcases List.mem_cons.mp ha2 with h' | h'
            · exact absurd h' hcase
            · exact h'
          have hb1t : b ∈ t1 := by
            rcases List.mem_cons.mp hb1 with h' | h'
            · exact absurd h'.symm hcase
            · exact h'
          have hba : entryLE b a := (List.sorted_cons.mp s2).1 a ha2t
          have hab2 : entryLE a b := (List.sorted_cons.mp s1).1 b hb1t
          have hkey : a.key = b.key := le_antisymm hab2 hba
          exact inj a ha2 b (List.mem_cons_self b t2) hkey
      subst hab
      have p2 : List.Perm t1 t2 := p.cons_inv
      have ht : t1 = t2 :=
        ih p2 (fun x hx y hy => inj x (List.mem_cons_of_mem _ hx) y
          (List.mem_cons_of_mem _ hy)) (List.sorted_cons.mp s1).2
          (List.sorted_cons.mp s2).2
      rw [ht]

/-- The fold input is identical on any two nodes holding the same located
transactions: the sorted entry lists coincide. -/
theorem sortedEntries_congr {V : Type} [DecidableEq V] {st1 st2 : MapSessions V}
    (h1 : (st1.map Prod.fst).Nodup) (h2 : (st2.map Prod.fst).Nodup)
    (h12 : ∀ e ∈ allEntries st1, e ∈ allEntries st2)
    (h21 : ∀ e ∈ allEntries st2, e ∈ allEntries st1) :
    sortedEntries st1 = sortedEntries st2 := by
  have hp1 : List.Perm (sortedEntries st1) (allEntries st1) :=
    List.perm_insertionSort entryLE (allEntries st1)
  have hp2 : List.Perm (allEntries st2) (sortedEntries st2) :=
    (List.perm_insertionSort entryLE (allEntries st2)).symm
  have hperm : List.Perm (sortedEntries st1) (sortedEntries st2) :=
    (hp1.trans (allEntries_perm h1 h2 h12 h21)).trans hp2
  apply sorted_entryLE_eq hperm
  · intro x hx y hy
    exact allEntries_key_inj h2 x ((List.mem_insertionSort entryLE).mp hx) y
      ((List.mem_insertionSort entryLE).mp hy)
  · exact List.sorted_insertionSort entryLE (allEntries st1)
  · exact List.sorted_insertionSort entryLE (allEntries st2)

/-- The materialized CoMap view is determined by the set of located
transactions alone. -/
theorem coMapView_congr {V : Type} [DecidableEq V] {st1 st2 : MapSessions V}
    (h1 : (st1.map Prod.fst).Nodup) (h2 : (st2.map Prod.fst).Nodup)
    (h12 : ∀ e ∈ allEntries st1, e ∈ allEntries st2)
    (h21 : ∀ e ∈ allEntries st2, e ∈ allEntries st1) :
    coMapView st1 = coMapView st2 := by
  unfold coMapView
  rw [sortedEntries_congr h1 h2 h12 h21]

/-- Two options agreeing on every `some` value are equal. -/
theorem option_eq_of_some_iff {α : Type} {a b : Option α}
    (h : ∀ x, a = some x ↔ b = some x) : a = b := by
  cases a with
  | none =>
    cases b with
    | none => rfl
    | some y => exact ((h y).mpr rfl).symm ▸ rfl
  | some x => exact ((h x).mp rfl).symm

/-- The stored log of a session, read positionally, is characterized by the
located transactions (under no duplicate session IDs). -/
theorem sessionLog_getElem {V : Type} {st : MapSessions V}
    (h : (st.map Prod.fst).Nodup) (s : SessionID) (i : ℕ) (tx : MapTx V) :
    (sessionLog st s)[i]? = some tx ↔ ∃ log, (s, log) ∈ st ∧ log[i]? = some tx := by
  induction st with
  | nil => simp [sessionLog]
  | cons hd tl ih =>
    rw [List.map_cons] at h
    have hnd := List.nodup_cons.mp h
    by_cases hs : hd.1 = s
    · have hfind : sessionLog (hd :: tl) s = hd.2 := by
        unfold sessionLog
        rw [List.find?_cons_of_pos _ (by simp [hs])]
        rfl
      rw [hfind]
      constructor
      · intro hg
        refine ⟨hd.2, ?_, hg⟩
        rw [← hs]
        exact List.mem_cons_self hd tl
      · rintro ⟨log, hlog, hg⟩
        rcases List.mem_cons.mp hlog with heq | hmem
        · have hlg : log = hd.2 := congrArg Prod.snd heq
          rw [← hlg]
          exact hg
        · exact absurd (List.mem_map.mpr ⟨(s, log), hmem, hs.symm⟩) hnd.1
    · have hfind : sessionLog (hd :: tl) s = sessionLog tl s := by
        unfold sessionLog
        rw [List.find?_cons_of_neg _ (by simp [hs])]
      rw [hfind, ih hnd.2]
      constructor
      · rintro ⟨log, hm, hg⟩
        exact ⟨log, List.mem_cons_of_mem _ hm, hg⟩
      · rintro ⟨log, hm, hg⟩
        rcases List.mem_cons.mp hm with heq | hmem
        · exact absurd (congrArg Prod.fst heq).symm hs
        · exact ⟨log, hmem, hg⟩

/-- The per-session logs are determined by the set of located transactions. -/
theorem sessionLog_determined {V : Type} {st1 st2 : MapSessions V}
    (h1 : (st1.map Prod.fst).Nodup) (h2 : (st2.map Prod.fst).Nodup)
    (h12 : ∀ e ∈ allEntries st1, e ∈ allEntries st2)
    (h21 : ∀ e ∈ allEntries st2, e ∈ allEntries st1) (s : SessionID) :
    sessionLog st1 s = sessionLog st2 s := by
  apply List.ext_getElem?
  intro i
  apply option_eq_of_some_iff
  intro tx
  rw [sessionLog_getElem h1 s i tx, sessionLog_getElem h2 s i tx,
    ← mem_allEntries, ← mem_allEntries]
  exact ⟨h12 _, h21 _⟩

/-! ## CoMap: last-writer-wins characterization -/

/-- Applying a change list to a view, read at `k`, yields the final write to
`k` if there is one, else the previous value. -/
theorem applyOps_get {V : Type} (changes : List (MapOp V))
    (m : String → Option V) (k : String) :
    (changes.foldl applyOp m) k = (changes.foldl (lwStep k) none).getD (m k) := by
  induction changes using List.reverseRecOn with
  | nil => simp
  | append_singleton l op ih =>
    rw [List.foldl_append, List.foldl_append]
    cases op with
    | set k2 v =>
      by_cases hk : k = k2
      · subst hk
        simp [applyOp, lwStep]
      · simp only [List.foldl_cons, List.foldl_nil, applyOp, lwStep]
        rw [if_neg hk, if_neg fun h => hk h.symm]
        exact ih
    | del k2 =>
      by_cases hk : k = k2
      · subst hk
        simp [applyOp, lwStep]
      · simp only [List.foldl_cons, List.foldl_nil, applyOp, lwStep]
        rw [if_neg hk, if_neg fun h => hk h.symm]
        exact ih

/-- A transaction has no final write to `k` exactly when none of its changes
touch `k`. -/
theorem lastWrite_none_iff {V : Type} (k : String) (tx : MapTx V) :
    lastWrite k tx = none ↔ txTouches k tx = false := by
  unfold lastWrite txTouches
  induction tx.changes using List.reverseRecOn with
  | nil => simp
  | append_singleton l op ih =>
    rw [List.foldl_append, List.foldl_cons, List.foldl_nil, List.any_append]
    cases op with
    | set k2 v =>
      by_cases hk : k2 = k
      · simp [lwStep, opTouches, hk]
      · simp [lwStep, opTouches, hk, ih]
    | del k2 =>
      by_cases hk : k2 = k
      · simp [lwStep, opTouches, hk]
      · simp [lwStep, opTouches, hk, ih]

/-- Folding located transactions over a view, read at `k`, yields the final
write of the last transaction touching `k`, if any. -/
theorem viewFold_get {V : Type} (es : List (MapEntry V)) (m : String → Option V)
    (k : String) :
    (es.foldl applyTx m) k =
      match (es.filter fun x => txTouches k x.tx).getLast? with
      | none => m k
      | some e => (lastWrite k e.tx).getD (m k) := by
  induction es using List.reverseRecOn generalizing m with
  | nil => simp
  | append_singleton l e ih =>
    rw [List.foldl_append, List.foldl_cons, List.foldl_nil, List.filter_append]
    have happ : (applyTx (l.foldl applyTx m) e) k =
        (lastWrite k e.tx).getD ((l.foldl applyTx m) k) := applyOps_get e.tx.changes _ k
    by_cases ht : txTouches k e.tx
    · have hfil : (([e] : List (MapEntry V)).filter fun x => txTouches k x.tx) = [e] := by
        simp [ht]
      rw [hfil, List.getLast?_concat]
      rcases ho : lastWrite k e.tx with _ | w
      · rw [ho] at happ
        exact absurd ((lastWrite_none_iff k e.tx).mp ho) (by simp [ht])
      · rw [happ, ho]
        simp [ho]
    · have hfil : (([e] : List (MapEntry V)).filter fun x => txTouches k x.tx) = [] := by
        simp [ht]
      have ho : lastWrite k e.tx = none :=
        (lastWrite_none_iff k e.tx).mpr (by simpa using ht)
      rw [hfil, List.append_nil, happ, ho]
      simp [ih]

/-- In a sorted entry list, a strictly maximal member is the last element. -/
theorem getLast_of_sorted_max {V : Type} : ∀ {l : List (MapEntry V)},
    l.Sorted entryLE → ∀ {e : MapEntry V}, e ∈ l →
    (∀ x ∈ l, x ≠ e → x.key < e.key) → l.getLast? = some e := by
  intro l
  induction l with
  | nil =>
    intro _ e he
    cases he
  | cons a t ih =>
    intro hs e he hmax
    cases t with
    | nil =>
      rcases List.mem_singleton.mp he with rfl
      rfl
    | cons b t2 =>
      rw [List.getLast?_cons_cons]
      apply ih (List.sorted_cons.mp hs).2
      · rcases List.mem_cons.mp he with rfl | h2
        · by_cases hba : b = e
          · rw [← hba]
            exact List.mem_cons_self b t2
          · have hlt : b.key < e.key :=
              hmax b (List.mem_cons_of_mem _ (List.mem_cons_self b t2)) hba
            have hle : entryLE e b :=
              (List.sorted_cons.mp hs).1 b (List.mem_cons_self b t2)
            exact absurd hlt (not_lt.mpr hle)
        · exact h2
      · intro x hx hne
        exact hmax x (List.mem_cons_of_mem _ hx) hne

/-- Claim C4: reading key `k` from the materialized CoMap view returns the
final `set`/`del` write of the transaction that is greatest in the
lexicographic `(madeAt, sessionID, indexInSession)` order among all
transactions changing `k` (last-writer-wins; equal timestamps are decided by
the lexicographically greater session ID, strictly below equal-timestamp
entries of greater sessions in the key order), and every replica holding the
same transactions reads the same winner. -/
theorem coMap_lww_get {V : Type} [DecidableEq V] (st : MapSessions V) (k : String)
    (e : MapEntry V) (hnd : (st.map Prod.fst).Nodup)
    (he : e ∈ allEntries st) (ht : txTouches k e.tx = true)
    (hmax : ∀ x ∈ allEntries st, txTouches k x.tx = true → x ≠ e → x.key < e.key) :
    coMapGet st k = (lastWrite k e.tx).getD none ∧
    ∀ st2, (st2.map Prod.fst).Nodup →
      (∀ x ∈ allEntries st, x ∈ allEntries st2) →
      (∀ x ∈ allEntries st2, x ∈ allEntries st) →
      coMapGet st2 k = (lastWrite k e.tx).getD none := by
  have hmain : coMapGet st k = (lastWrite k e.tx).getD none := by
    unfold coMapGet coMapView
    rw [viewFold_get]
    have hfs : ((sortedEntries st).filter fun x => txTouches k x.tx).Sorted entryLE :=
      List.Pairwise.sublist (List.filter_sublist _)
        (List.sorted_insertionSort entryLE (allEntries st))
    have hmem : e ∈ (sortedEntries st).filter fun x => txTouches k x.tx :=
      List.mem_filter.mpr ⟨(List.mem_insertionSort entryLE).mpr he, ht⟩
    have hlast := getLast_of_sorted_max hfs hmem fun x hx hne =>
      hmax x ((List.mem_insertionSort entryLE).mp (List.mem_filter.mp hx).1)
        (List.mem_filter.mp hx).2 hne
    rw [hlast]
  refine ⟨hmain, ?_⟩
  intro st2 hnd2 h12 h21
  have hcongr := coMapView_congr hnd hnd2 h12 h21
  unfold coMapGet
  rw [← hcongr]
  exact hmain

/-- Witness for claim C4 at concrete inputs: two writes to `"k"` with equal
timestamps from sessions `"sA"` and `"sB"`; the lexicographically greater
session `"sB"` wins on this node and on a node storing the sessions in the
opposite order. -/
theorem coMap_lww_get_witness :
    coMapGet [("sA", [⟨5, [MapOp.set "k" 10]⟩]), ("sB", [⟨5, [MapOp.set "k" 20]⟩])]
        "k" =
      (lastWrite "k" (⟨5, [MapOp.set "k" 20]⟩ : MapTx ℕ)).getD none ∧
    coMapGet [("sB", [⟨5, [MapOp.set "k" 20]⟩]), ("sA", [⟨5, [MapOp.set "k" 10]⟩])]
        "k" =
      (lastWrite "k" (⟨5, [MapOp.set "k" 20]⟩ : MapTx ℕ)).getD none ∧
    (lastWrite "k" (⟨5, [MapOp.set "k" 20]⟩ : MapTx ℕ)).getD none = some 20 :=
  ⟨(coMap_lww_get [("sA", [⟨5, [MapOp.set "k" 10]⟩]), ("sB", [⟨5, [MapOp.set "k" 20]⟩])]
      "k" ⟨"sB", 0, ⟨5, [MapOp.set "k" 20]⟩⟩
      (by decide) (by decide) (by decide) (by decide)).1,
   (coMap_lww_get [("sA", [⟨5, [MapOp.set "k" 10]⟩]), ("sB", [⟨5, [MapOp.set "k" 20]⟩])]
      "k" ⟨"sB", 0, ⟨5, [MapOp.set "k" 20]⟩⟩
      (by decide) (by decide) (by decide) (by decide)).2
      [("sB", [⟨5, [MapOp.set "k" 20]⟩]), ("sA", [⟨5, [MapOp.set "k" 10]⟩])]
      (by decide) (by decide) (by decide),
   by decide⟩

/-! ## CoList: traversal order lemmas -/

/-- Children of an anchor are exactly the insertions naming it. -/
theorem mem_childrenAt_iff {V : Type} [DecidableEq V] {ins : List (ListIns V)}
    {a : ListAnchor} {c : ListIns V} :
    c ∈ childrenAt ins a ↔ c ∈ ins ∧ c.after = a := by
  unfold childrenAt
  rw [List.mem_insertionSort, List.mem_filter]
  simp

/-- The traversal unfolded: each child, newest first, followed by the
traversal below it. -/
theorem listTraverse_eq {V : Type} [DecidableEq V] (ins : List (ListIns V))
    (a : ListAnchor) :
    listTraverse ins a =
      (childrenAt ins a).flatMap fun c =>
        c :: listTraverse (ins.erase c) (ListIns.pos c) := by
  rw [listTraverse]
  simp

/-- Everything the traversal emits comes from the insertion list. -/
theorem mem_of_mem_listTraverse {V : Type} [DecidableEq V] :
    ∀ (n : ℕ) (ins : List (ListIns V)), ins.length ≤ n →
      ∀ (a : ListAnchor) (x : ListIns V), x ∈ listTraverse ins a → x ∈ ins := by
  intro n
  induction n with
  | zero =>
    intro ins hlen a x hx
    have hnil : ins = [] := List.length_eq_zero.mp (Nat.le_zero.mp hlen)
    subst hnil
    rw [listTraverse_eq] at hx
    simp [childrenAt] at hx
  | succ n ih =>
    intro ins hlen a x hx
    rw [listTraverse_eq] at hx
    rcases List.mem_flatMap.mp hx with ⟨c, hc, hmem⟩
    have hcins : c ∈ ins := (mem_childrenAt_iff.mp hc).1
    rcases List.mem_cons.mp hmem with rfl | hrec
    · exact hcins
    · have hlen2 : (ins.erase c).length ≤ n := by
        have he := List.length_erase_of_mem hcins
        have hp : 0 < ins.length := List.length_pos.mpr (List.ne_nil_of_mem hcins)
        omega
      exact List.mem_of_mem_erase (ih (ins.erase c) hlen2 _ x hrec)

/-- Everything the traversal emits is anchored at the traversal root or at the
position of some listed insertion. -/
theorem after_of_mem_listTraverse {V : Type} [DecidableEq V] :
    ∀ (n : ℕ) (ins : List (ListIns V)), ins.length ≤ n →
      ∀ (a : ListAnchor) (x : ListIns V), x ∈ listTraverse ins a →
        x.after = a ∨ ∃ c ∈ ins, x.after = ListIns.pos c := by
  intro n
  induction n with
  | zero =>
    intro ins hlen a x hx
    have hnil : ins = [] := List.length_eq_zero.mp (Nat.le_zero.mp hlen)
    subst hnil
    rw [listTraverse_eq] at hx
    simp [childrenAt] at hx
  | succ n ih =>
    intro ins hlen a x hx
    rw [listTraverse_eq] at hx
    rcases List.mem_flatMap.mp hx with ⟨c, hc, hmem⟩
    have hcins : c ∈ ins := (mem_childrenAt_iff.mp hc).1
    rcases List.mem_cons.mp hmem with rfl | hrec
    · exact Or.inl (mem_childrenAt_iff.mp hc).2
    · have hlen2 : (ins.erase c).length ≤ n := by
        have he := List.length_erase_of_mem hcins
        have hp : 0 < ins.length := List.length_pos.mpr (List.ne_nil_of_mem hcins)
        omega
      rcases ih (ins.erase c) hlen2 _ x hrec with hafter | ⟨c2, hc2, hafter2⟩
      · exact Or.inr ⟨c, hcins, hafter⟩
      · exact Or.inr ⟨c2, List.mem_of_mem_erase hc2, hafter2⟩

/-- An insertion anchored at `a` is never emitted by a traversal rooted
elsewhere, provided no listed position equals `a`. -/
theorem not_mem_listTraverse_of_after {V : Type} [DecidableEq V]
    (ins : List (ListIns V)) (b a : ListAnchor) (x : ListIns V)
    (hxa : x.after = a) (hb : b ≠ a) (hpos : ∀ i ∈ ins, ListIns.pos i ≠ a) :
    x ∉ listTraverse ins b := by
  intro hx
  rcases after_of_mem_listTraverse ins.length ins le_rfl b x hx with h | ⟨c, hc, hcp⟩
  · rw [hxa] at h
    exact hb h.symm
  · rw [hxa] at hcp
    exact hpos c hc hcp.symm

/-- Each insertion anchored at `a` is emitted exactly once by the traversal at
`a` (no listed position names `a`, positions are unique). -/
theorem count_listTraverse {V : Type} [DecidableEq V] (ins : List (ListIns V))
    (a : ListAnchor) (hnodup : ins.Nodup)
    (hpos : ∀ i ∈ ins, ListIns.pos i ≠ a)
    (x : ListIns V) (hx : x ∈ ins) (hxa : x.after = a) :
    (listTraverse ins a).count x = 1 := by
  have hseg : ∀ c ∈ ins,
      (c :: listTraverse (ins.erase c) (ListIns.pos c)).count x =
        if c = x then 1 else 0 := by
    intro c hc
    by_cases hcx : c = x
    · rw [if_pos hcx, hcx, List.count_cons_self]
      have hnot : x ∉ listTraverse (ins.erase x) (ListIns.pos x) := by
        intro hmem
        exact hnodup.not_mem_erase
          (mem_of_mem_listTraverse (ins.erase x).length (ins.erase x) le_rfl _ x hmem)
      rw [List.count_eq_zero.mpr hnot]
    · rw [if_neg hcx, List.count_cons_of_ne (fun h => hcx h.symm)]
      apply List.count_eq_zero.mpr
      apply not_mem_listTraverse_of_after (ins.erase c) (ListIns.pos c) a x hxa
        (hpos c hc)
      intro i hi
      exact hpos i (List.mem_of_mem_erase hi)
  have haux : ∀ cs : List (ListIns V), cs.Nodup → (∀ c ∈ cs, c ∈ ins) →
      (cs.flatMap fun c => c :: listTraverse (ins.erase c) (ListIns.pos c)).count x =
        if x ∈ cs then 1 else 0 := by
    intro cs
    induction cs with
    | nil => simp
    | cons c cs2 ih =>
      intro hnd hsub
      have hnd2 := List.nodup_cons.mp hnd
      rw [List.flatMap_cons, List.count_append,
        hseg c (hsub c (List.mem_cons_self c cs2)),
        ih hnd2.2 fun c2 hc2 => hsub c2 (List.mem_cons_of_mem _ hc2)]
      by_cases hcx : c = x
      · subst hcx
        rw [if_pos rfl, if_neg hnd2.1, if_pos (List.mem_cons_self c cs2)]
      · rw [if_neg hcx]
        by_cases hmem : x ∈ cs2
        · rw [if_pos hmem, if_pos (List.mem_cons_of_mem _ hmem)]
        · rw [if_neg hmem, if_neg (by
            intro hmem2
            rcases List.mem_cons.mp hmem2 with rfl | h2
            · exact hcx rfl
            · exact hmem h2)]
  rw [listTraverse_eq]
  have hnodch : (childrenAt ins a).Nodup :=
    (List.perm_insertionSort newerFirst _).nodup_iff.mpr (hnodup.filter _)
  rw [haux (childrenAt ins a) hnodch fun c hc => (mem_childrenAt_iff.mp hc).1]
  rw [if_pos (mem_childrenAt_iff.mpr ⟨hx, hxa⟩)]

/-- In a newest-first sorted list, an element with strictly greater key splits
the list before any element with smaller key. -/
theorem sorted_split_of_lt {V : Type} : ∀ {cs : List (ListIns V)},
    cs.Sorted newerFirst → ∀ {i1 i2 : ListIns V}, i1 ∈ cs → i2 ∈ cs →
    ListIns.key i2 < ListIns.key i1 →
    ∃ xs ys, cs = xs ++ i1 :: ys ∧ i2 ∈ ys := by
  intro cs
  induction cs with
  | nil =>
    intro _ i1 i2 h1
    cases h1
  | cons c t ih =>
    intro hs i1 i2 h1 h2 hk
    by_cases hc1 : c = i1
    · subst hc1
      have hne : i2 ≠ c := by
        intro heq
        rw [heq] at hk
        exact lt_irrefl _ hk
      have h2t : i2 ∈ t := by
        rcases List.mem_cons.mp h2 with heq | h'
        · exact absurd heq hne
        · exact h'
      exact ⟨[], t, rfl, h2t⟩
    · have h1t : i1 ∈ t := by
        rcases List.mem_cons.mp h1 with heq | h'
        · exact absurd heq.symm hc1
        · exact h'
      have hc2 : c ≠ i2 := by
        intro heq
        subst heq
        have hle : newerFirst c i1 := (List.sorted_cons.mp hs).1 i1 h1t
        exact absurd hk (not_lt.mpr hle)
      have h2t : i2 ∈ t := by
        rcases List.mem_cons.mp h2 with heq | h'
        · exact absurd heq.symm hc2
        · exact h'
      rcases ih (List.sorted_cons.mp hs).2 h1t h2t hk with ⟨xs, ys, heq, hys⟩
      exact ⟨c :: xs, ys, by rw [heq, List.cons_append], hys⟩

/-- Claim C5: at any anchor, insertions appear in the iteration order
newest-first by `(madeAt, sessionID, indexInSession)` of the inserting
transaction: each of two concurrent insertions at the same anchor (distinct
transaction IDs, hence distinct causal keys) is emitted exactly once, and the
one with the greater key comes first — so every replica, whatever its stored
order, produces the same relative order of the two elements. -/
theorem coList_concurrent_insert_order {V : Type} [DecidableEq V]
    (ins : List (ListIns V)) (a : ListAnchor)
    (hpos : (ins.map ListIns.pos).Nodup)
    (hanch : ∀ i ∈ ins, ListIns.pos i ≠ a)
    (i1 i2 : ListIns V) (m1 : i1 ∈ ins) (m2 : i2 ∈ ins)
    (a1 : i1.after = a) (a2 : i2.after = a)
    (hk : ListIns.key i2 < ListIns.key i1) :
    (listTraverse ins a).count i1 = 1 ∧
    (listTraverse ins a).count i2 = 1 ∧
    ∃ p q r, listTraverse ins a = p ++ i1 :: (q ++ i2 :: r) := by
  have hnodup : ins.Nodup := hpos.of_map
  refine ⟨count_listTraverse ins a hnodup hanch i1 m1 a1,
    count_listTraverse ins a hnodup hanch i2 m2 a2, ?_⟩
  have hc1 : i1 ∈ childrenAt ins a := mem_childrenAt_iff.mpr ⟨m1, a1⟩
  have hc2 : i2 ∈ childrenAt ins a := mem_childrenAt_iff.mpr ⟨m2, a2⟩
  have hsorted : (childrenAt ins a).Sorted newerFirst :=
    List.sorted_insertionSort newerFirst _
  rcases sorted_split_of_lt hsorted hc1 hc2 hk with ⟨xs, ys, heq, hys⟩
  rcases List.append_of_mem hys with ⟨us, vs, rfl⟩
  rw [listTraverse_eq, heq]
  refine ⟨xs.flatMap fun c => c :: listTraverse (ins.erase c) (ListIns.pos c),
    listTraverse (ins.erase i1) (ListIns.pos i1) ++
      (us.flatMap fun c => c :: listTraverse (ins.erase c) (ListIns.pos c)),
    listTraverse (ins.erase i2) (ListIns.pos i2) ++
      (vs.flatMap fun c => c :: listTraverse (ins.erase c) (ListIns.pos c)), ?_⟩
  simp [List.flatMap_append, List.flatMap_cons, List.append_assoc]

/-- Witness for claim C5 at concrete inputs: insertions of `"c"` (made at 2 by
session `"sX"`) and `"d"` (made at 1 by session `"sY"`) after the `"start"`
anchor; each appears exactly once in the iteration, on a replica that stored
the older one first. -/
theorem coList_concurrent_insert_order_witness :
    (listTraverse
        [(⟨1, "sY", 0, ListAnchor.start, "d"⟩ : ListIns String),
          ⟨2, "sX", 0, ListAnchor.start, "c"⟩] ListAnchor.start).count
      ⟨2, "sX", 0, ListAnchor.start, "c"⟩ = 1 ∧
    (listTraverse
        [(⟨1, "sY", 0, ListAnchor.start, "d"⟩ : ListIns String),
          ⟨2, "sX", 0, ListAnchor.start, "c"⟩] ListAnchor.start).count
      ⟨1, "sY", 0, ListAnchor.start, "d"⟩ = 1 :=
  ⟨(coList_concurrent_insert_order
      [⟨1, "sY", 0, ListAnchor.start, "d"⟩, ⟨2, "sX", 0, ListAnchor.start, "c"⟩]
      ListAnchor.start (by decide) (by decide)
      ⟨2, "sX", 0, ListAnchor.start, "c"⟩ ⟨1, "sY", 0, ListAnchor.start, "d"⟩
      (by decide) (by decide) (by decide) (by decide) (by decide)).1,
   (coList_concurrent_insert_order
      [⟨1, "sY", 0, ListAnchor.start, "d"⟩, ⟨2, "sX", 0, ListAnchor.start, "c"⟩]
      ListAnchor.start (by decide) (by decide)
      ⟨2, "sX", 0, ListAnchor.start, "c"⟩ ⟨1, "sY", 0, ListAnchor.start, "d"⟩
      (by decide) (by decide) (by decide) (by decide) (by decide)).2.1⟩

/-! ## Convergence across all CoValue kinds -/

/-- Membership in the located-transaction list of a generic session
structure. -/
theorem mem_locEntries {τ : Type} {st : Sessions τ} {s : SessionID} {i : ℕ}
    {tx : τ} :
    (⟨s, i, tx⟩ : LocEntry τ) ∈ locEntries st ↔
      ∃ log, (s, log) ∈ st ∧ log[i]? = some tx := by
  constructor
  · intro h
    rcases List.mem_flatMap.mp h with ⟨p, hp, hmem⟩
    rcases List.mem_map.mp hmem with ⟨q, hq, heq⟩
    have hs : p.1 = s := congrArg LocEntry.sid heq
    have hi : q.1 = i := congrArg LocEntry.idx heq
    have htx : q.2 = tx := congrArg LocEntry.tx heq
    refine ⟨p.2, ?_, ?_⟩
    · rw [← hs]
      exact hp
    · have := List.mem_enum_iff_getElem?.mp hq
      rw [hi, htx] at this
      exact this
  · rintro ⟨log, hlog, hget⟩
    apply List.mem_flatMap.mpr
    refine ⟨(s, log), hlog, List.mem_map.mpr ⟨(i, tx), ?_, rfl⟩⟩
    exact List.mem_enum_iff_getElem?.mpr hget

/-- The stored log of a session in a generic session structure, read
positionally, is characterized by the located transactions (under no
duplicate session IDs). -/
theorem storedLog_getElem {τ : Type} {st : Sessions τ}
    (h : (st.map Prod.fst).Nodup) (s : SessionID) (i : ℕ) (tx : τ) :
    (storedLog st s)[i]? = some tx ↔ ∃ log, (s, log) ∈ st ∧ log[i]? = some tx := by
  induction st with
  | nil => simp [storedLog]
  | cons hd tl ih =>
    rw [List.map_cons] at h
    have hnd := List.nodup_cons.mp h
    by_cases hs : hd.1 = s
    · have hfind : storedLog (hd :: tl) s = hd.2 := by
        unfold storedLog
        rw [List.find?_cons_of_pos _ (by simp [hs])]
        rfl
      rw [hfind]
      constructor
      · intro hg
        refine ⟨hd.2, ?_, hg⟩
        rw [← hs]
        exact List.mem_cons_self hd tl
      · rintro ⟨log, hlog, hg⟩
        rcases List.mem_cons.mp hlog with heq | hmem
        · have hlg : log = hd.2 := congrArg Prod.snd heq
          rw [← hlg]
          exact hg
        · exact absurd (List.mem_map.mpr ⟨(s, log), hmem, hs.symm⟩) hnd.1
    · have hfind : storedLog (hd :: tl) s = storedLog tl s := by
        unfold storedLog
        rw [List.find?_cons_of_neg _ (by simp [hs])]
      rw [hfind, ih hnd.2]
      constructor
      · rintro ⟨log, hm, hg⟩
        exact ⟨log, List.mem_cons_of_mem _ hm, hg⟩
      · rintro ⟨log, hm, hg⟩
        rcases List.mem_cons.mp hm with heq | hmem
        · exact absurd (congrArg Prod.fst heq).symm hs
        · exact ⟨log, hmem, hg⟩

/-- For every CoValue kind, the canonical per-session logs are determined by
the set of located transactions. -/
theorem storedLog_determined {τ : Type} {st1 st2 : Sessions τ}
    (h1 : (st1.map Prod.fst).Nodup) (h2 : (st2.map Prod.fst).Nodup)
    (h12 : ∀ e ∈ locEntries st1, e ∈ locEntries st2)
    (h21 : ∀ e ∈ locEntries st2, e ∈ locEntries st1) (s : SessionID) :
    storedLog st1 s = storedLog st2 s := by
  apply List.ext_getElem?
  intro i
  apply option_eq_of_some_iff
  intro tx
  rw [storedLog_getElem h1 s i tx, storedLog_getElem h2 s i tx,
    ← mem_locEntries, ← mem_locEntries]
  exact ⟨h12 _, h21 _⟩

/-- Unique positions force unique causal keys among listed insertions. -/
theorem key_inj_of_pos_nodup {V : Type} {l : List (ListIns V)}
    (h : (l.map ListIns.pos).Nodup) :
    ∀ x ∈ l, ∀ y ∈ l, ListIns.key x = ListIns.key y → x = y := by
  intro x hx y hy hk
  unfold ListIns.key at hk
  obtain ⟨_, hs, hi⟩ := mkKey_inj hk
  exact List.inj_on_of_nodup_map h hx hy (by
    unfold ListIns.pos
    rw [hs, hi])

/-- Two newest-first sorted permutations of key-distinct insertions are
equal. -/
theorem sorted_newerFirst_eq {V : Type} : ∀ {l1 l2 : List (ListIns V)},
    List.Perm l1 l2 →
    (∀ x ∈ l2, ∀ y ∈ l2, ListIns.key x = ListIns.key y → x = y) →
    l1.Sorted newerFirst → l2.Sorted newerFirst → l1 = l2 := by
  intro l1
  induction l1 with
  | nil =>
    intro l2 p _ _ _
    have := p.symm.eq_nil
    rw [this]
  | cons a t1 ih =>
    intro l2 p inj s1 s2
    cases l2 with
    | nil => cases List.Perm.eq_nil p
    | cons b t2 =>
      have hab : a = b := by
        by_cases hcase : a = b
        · exact hcase
        · have ha2 : a ∈ b :: t2 := p.mem_iff.mp (List.mem_cons_self a t1)
          have hb1 : b ∈ a :: t1 := p.mem_iff.mpr (List.mem_cons_self b t2)
          have ha2t : a ∈ t2 := by
            rcases List.mem_cons.mp ha2 with h' | h'
            · exact absurd h' hcase
            · exact h'
          have hb1t : b ∈ t1 := by
            rcases List.mem_cons.mp hb1 with h' | h'
            · exact absurd h'.symm hcase
            · exact h'
          have hba : newerFirst b a := (List.sorted_cons.mp s2).1 a ha2t
          have hab2 : newerFirst a b := (List.sorted_cons.mp s1).1 b hb1t
          have hkey : ListIns.key a = ListIns.key b := le_antisymm hba hab2
          exact inj a ha2 b (List.mem_cons_self b t2) hkey
      subst hab
      have p2 : List.Perm t1 t2 := p.cons_inv
      have ht : t1 = t2 :=
        ih p2 (fun x hx y hy => inj x (List.mem_cons_of_mem _ hx) y
          (List.mem_cons_of_mem _ hy)) (List.sorted_cons.mp s1).2
          (List.sorted_cons.mp s2).2
      rw [ht]

/-- The children of an anchor are the same on any two replicas holding the
same insertions. -/
theorem childrenAt_congr {V : Type} [DecidableEq V] {ins1 ins2 : List (ListIns V)}
    (hperm : List.Perm ins1 ins2) (hnd : (ins2.map ListIns.pos).Nodup)
    (a : ListAnchor) : childrenAt ins1 a = childrenAt ins2 a := by
  unfold childrenAt
  apply sorted_newerFirst_eq
  · exact ((List.perm_insertionSort newerFirst _).trans
      (hperm.filter _)).trans (List.perm_insertionSort newerFirst _).symm
  · intro x hx y hy hk
    exact key_inj_of_pos_nodup hnd x
      (List.mem_of_mem_filter ((List.mem_insertionSort newerFirst).mp hx)) y
      (List.mem_of_mem_filter ((List.mem_insertionSort newerFirst).mp hy)) hk
  · exact List.sorted_insertionSort newerFirst _
  · exact List.sorted_insertionSort newerFirst _

/-- The RGA traversal is determined by the set of insertions alone, whatever
order a replica stores them in. -/
theorem listTraverse_congr {V : Type} [DecidableEq V] :
    ∀ (n : ℕ) (ins1 ins2 : List (ListIns V)), ins1.length ≤ n →
      List.Perm ins1 ins2 → ((ins2.map ListIns.pos).Nodup) →
      ∀ a, listTraverse ins1 a = listTraverse ins2 a := by
  intro n
  induction n with
  | zero =>
    intro ins1 ins2 hlen hperm _ a
    have h1 : ins1 = [] := List.length_eq_zero.mp (Nat.le_zero.mp hlen)
    subst h1
    have h2 : ins2 = [] := hperm.symm.eq_nil
    subst h2
    rfl
  | succ n ih =>
    intro ins1 ins2 hlen hperm hnd a
    rw [listTraverse_eq, listTraverse_eq, childrenAt_congr hperm hnd a]
    apply List.flatMap_congr
    intro c hc
    have hc2 : c ∈ ins2 := (mem_childrenAt_iff.mp hc).1
    have hc1 : c ∈ ins1 := hperm.mem_iff.mpr hc2
    have hlen2 : (ins1.erase c).length ≤ n := by
      have he := List.length_erase_of_mem hc1
      have hp : 0 < ins1.length := List.length_pos.mpr (List.ne_nil_of_mem hc1)
      omega
    have hndE : ((ins2.erase c).map ListIns.pos).Nodup :=
      hnd.sublist ((ins2.erase_sublist c).map ListIns.pos)
    rw [ih (ins1.erase c) (ins2.erase c) hlen2 (hperm.erase c) hndE (ListIns.pos c)]

/-- The materialized CoList (and every per-anchor iteration) is determined by
the set of insertions and deletions alone. -/
theorem coListView_congr {V : Type} [DecidableEq V] (ins1 ins2 : List (ListIns V))
    (hperm : List.Perm ins1 ins2) (hnd : (ins2.map ListIns.pos).Nodup) :
    (∀ a, listTraverse ins1 a = listTraverse ins2 a) ∧
    ∀ dels, coListView ins1 dels = coListView ins2 dels := by
  have ht : ∀ a, listTraverse ins1 a = listTraverse ins2 a := fun a =>
    listTraverse_congr ins1.length ins1 ins2 le_rfl hperm hnd a
  refine ⟨ht, fun dels => ?_⟩
  unfold coListView
  rw [ht ListAnchor.start, ht ListAnchor.stop]

/-- Claim C3: for every CoValue kind, two nodes that have received the same
set of transactions — in any arrival orders — materialize identical views:
the canonical per-session logs (the state every kind folds over) are
determined by the transaction set, and so are the CoMap view and each key
read, the CoStream per-session feeds, the CoList traversal at every anchor
and its materialized list, and the CoPlainText text. -/
theorem coValue_view_convergence :
    (∀ (τ : Type) (st1 st2 : Sessions τ),
      (st1.map Prod.fst).Nodup → (st2.map Prod.fst).Nodup →
      (∀ e ∈ locEntries st1, e ∈ locEntries st2) →
      (∀ e ∈ locEntries st2, e ∈ locEntries st1) →
      ∀ s, storedLog st1 s = storedLog st2 s) ∧
    (∀ (V : Type) [DecidableEq V], ∀ (st1 st2 : MapSessions V),
      (st1.map Prod.fst).Nodup → (st2.map Prod.fst).Nodup →
      (∀ e ∈ allEntries st1, e ∈ allEntries st2) →
      (∀ e ∈ allEntries st2, e ∈ allEntries st1) →
      coMapView st1 = coMapView st2 ∧ ∀ k, coMapGet st1 k = coMapGet st2 k) ∧
    (∀ (V : Type) (st1 st2 : StreamSessions V),
      (st1.map Prod.fst).Nodup → (st2.map Prod.fst).Nodup →
      (∀ e ∈ locEntries st1, e ∈ locEntries st2) →
      (∀ e ∈ locEntries st2, e ∈ locEntries st1) →
      coStreamView st1 = coStreamView st2) ∧
    (∀ (V : Type) [DecidableEq V], ∀ (ins1 ins2 : List (ListIns V)),
      List.Perm ins1 ins2 → (ins2.map ListIns.pos).Nodup →
      (∀ a, listTraverse ins1 a = listTraverse ins2 a) ∧
      ∀ dels, coListView ins1 dels = coListView ins2 dels) ∧
    (∀ (ins1 ins2 : List (ListIns Char)),
      List.Perm ins1 ins2 → (ins2.map ListIns.pos).Nodup →
      ∀ dels, coPlainTextView ins1 dels = coPlainTextView ins2 dels) := by
  refine ⟨?_, ?_, ?_, ?_, ?_⟩
  · intro τ st1 st2 h1 h2 h12 h21 s
    exact storedLog_determined h1 h2 h12 h21 s
  · intro V instV st1 st2 h1 h2 h12 h21
    have hview := coMapView_congr h1 h2 h12 h21
    refine ⟨hview, fun k => ?_⟩
    unfold coMapGet
    rw [hview]
  · intro V st1 st2 h1 h2 h12 h21
    funext s
    exact storedLog_determined h1 h2 h12 h21 s
  · intro V instV ins1 ins2 hperm hnd
    exact coListView_congr ins1 ins2 hperm hnd
  · intro ins1 ins2 hperm hnd dels
    unfold coPlainTextView
    exact (coListView_congr ins1 ins2 hperm hnd).2 dels

/-- Witness for claim C3 at concrete inputs: two replicas storing the same
transactions in opposite session orders agree on a CoMap key read and on the
per-session stream feeds; two replicas storing the same insertions in
opposite orders agree on the CoList iteration at `"start"` and on the
CoPlainText text. -/
theorem coValue_view_convergence_witness :
    coMapGet [("sA", [⟨1, [MapOp.set "k" 1]⟩]), ("sB", [⟨2, [MapOp.set "k" 2]⟩])]
        "k" =
      coMapGet [("sB", [⟨2, [MapOp.set "k" 2]⟩]), ("sA", [⟨1, [MapOp.set "k" 1]⟩])]
        "k" ∧
    coStreamView [("sA", [10]), ("sB", [20])] =
      coStreamView [("sB", [20]), ("sA", [10])] ∧
    listTraverse
        [(⟨1, "sY", 0, ListAnchor.start, "d"⟩ : ListIns String),
          ⟨2, "sX", 0, ListAnchor.start, "c"⟩] ListAnchor.start =
      listTraverse
        [(⟨2, "sX", 0, ListAnchor.start, "c"⟩ : ListIns String),
          ⟨1, "sY", 0, ListAnchor.start, "d"⟩] ListAnchor.start ∧
    coPlainTextView
        [⟨1, "sY", 0, ListAnchor.start, 'd'⟩, ⟨2, "sX", 0, ListAnchor.start, 'c'⟩]
        [] =
      coPlainTextView
        [⟨2, "sX", 0, ListAnchor.start, 'c'⟩, ⟨1, "sY", 0, ListAnchor.start, 'd'⟩]
        [] :=
  ⟨(coValue_view_convergence.2.1 ℕ
      [("sA", [⟨1, [MapOp.set "k" 1]⟩]), ("sB", [⟨2, [MapOp.set "k" 2]⟩])]
      [("sB", [⟨2, [MapOp.set "k" 2]⟩]), ("sA", [⟨1, [MapOp.set "k" 1]⟩])]
      (by decide) (by decide) (by decide) (by decide)).2 "k",
   coValue_view_convergence.2.2.1 ℕ [("sA", [10]), ("sB", [20])]
     [("sB", [20]), ("sA", [10])] (by decide) (by decide) (by decide) (by decide),
   (coValue_view_convergence.2.2.2.1 String
      [⟨1, "sY", 0, ListAnchor.start, "d"⟩, ⟨2, "sX", 0, ListAnchor.start, "c"⟩]
      [⟨2, "sX", 0, ListAnchor.start, "c"⟩, ⟨1, "sY", 0, ListAnchor.start, "d"⟩]
      (by decide) (by decide)).1 ListAnchor.start,
   coValue_view_convergence.2.2.2.2
     [⟨1, "sY", 0, ListAnchor.start, 'd'⟩, ⟨2, "sX", 0, ListAnchor.start, 'c'⟩]
     [⟨2, "sX", 0, ListAnchor.start, 'c'⟩, ⟨1, "sY", 0, ListAnchor.start, 'd'⟩]
     (by decide) (by decide) []⟩
